import Mathlib

/-!
Verification development for the Quark HTTP micro-framework core:
pattern compilation (`parsePattern`), route matching (`routeMatch`),
route lookup (`find`), middleware composition (`Chain`), route groups,
and the dispatcher (`serveHTTP` / `handleError`) with pooled contexts.

Strings are embedded as `List Char`.  The Go code compiles route patterns
to `regexp` regular expressions; here the compiled matcher is a small
regex AST (`RE`) together with a fuel-based backtracking matcher
(`reMatch`) that follows RE2's leftmost-first greedy semantics on the
fragment of regex syntax the route mini-language produces.
-/

set_option maxRecDepth 8000

/-- Compiled regular expression AST.  This is the shallow embedding of the
`regexp.Regexp` value that `parsePattern` builds: literal characters
(`regexp.QuoteMeta` makes every copied pattern character literal), `.`,
character classes, greedy `*`/`+`/`?`, concatenation, and capturing
groups (one per `{...}` parameter). -/
inductive RE where
  | emp
  | lit (c : Char)
  | anyc
  | cls (neg : Bool) (ranges : List (Char × Char))
  | cat (a b : RE)
  | star (r : RE)
  | plus (r : RE)
  | opt (r : RE)
  | grp (r : RE)
deriving DecidableEq, Repr

/-- Character-class membership: `c` lies in one of the inclusive ranges. -/
def inCls (rs : List (Char × Char)) (c : Char) : Bool :=
  rs.any (fun p => decide (p.1 ≤ c ∧ c ≤ p.2))

/-- Structural size of a regex, used to compute a sufficient fuel bound. -/
def reSize : RE → Nat
  | RE.emp => 1
  | RE.lit _ => 1
  | RE.anyc => 1
  | RE.cls _ _ => 1
  | RE.cat a b => reSize a + reSize b + 1
  | RE.star r => reSize r + 1
  | RE.plus r => reSize r + 2
  | RE.opt r => reSize r + 1
  | RE.grp r => reSize r + 1

/-- Backtracking regex matcher in continuation-passing style, with fuel.
`caps` accumulates captured substrings in the order groups complete
(for the route regexes groups are top-level and sequential, so this is
left-to-right pattern order, matching Go's submatch numbering).
Greedy semantics: `star`/`opt` first try to consume, falling back to the
continuation, exactly as a backtracking search over RE2's
leftmost-first preference order.  `.` does not match a newline (RE2
default); negated classes do.  The `star` case only iterates while the
body consumes input, mirroring RE2's empty-iteration cutoff. -/
def reMatch : Nat → RE → List Char → List (List Char) →
    (List Char → List (List Char) → Option (List (List Char))) →
    Option (List (List Char))
  | 0, _, _, _, _ => none
  | Nat.succ n, re, s, caps, k =>
    match re with
    | RE.emp => k s caps
    | RE.lit c =>
      match s with
      | [] => none
      | x :: rest => if x = c then k rest caps else none
    | RE.anyc =>
      match s with
      | [] => none
      | x :: rest => if x = '\n' then none else k rest caps
    | RE.cls neg rs =>
      match s with
      | [] => none
      | x :: rest => if inCls rs x = neg then none else k rest caps
    | RE.cat a b =>
      reMatch n a s caps (fun s2 caps2 => reMatch n b s2 caps2 k)
    | RE.star r =>
      match reMatch n r s caps
          (fun s2 caps2 =>
            if s2.length < s.length then reMatch n (RE.star r) s2 caps2 k
            else none) with
      | some res => some res
      | none => k s caps
    | RE.plus r =>
      reMatch n r s caps
        (fun s2 caps2 =>
          if s2.length < s.length then reMatch n (RE.star r) s2 caps2 k
          else k s2 caps2)
    | RE.opt r =>
      match reMatch n r s caps k with
      | some res => some res
      | none => k s caps
    | RE.grp r =>
      reMatch n r s caps
        (fun s2 caps2 => k s2 (caps2 ++ [s.take (s.length - s2.length)]))

/-- Fuel that is always sufficient for the route regexes. -/
def matchFuel (re : RE) (s : List Char) : Nat :=
  (reSize re + 2) * (s.length + 2)

/-- Anchored full match (`^...$` in the compiled pattern): the whole path
must be consumed.  Returns the list of captured substrings on success,
in group order — the model of `regexp.FindStringSubmatch` restricted to
the submatches (index 0, the full match, is the input itself). -/
def routeMatchCaps (re : RE) (path : List Char) : Option (List (List Char)) :=
  reMatch (matchFuel re path) re path []
    (fun s caps => if s.isEmpty then some caps else none)

/-! ### The constraint sub-regex compiler

`parsePattern` splices each parameter's constraint string (default
`[^/]+`) into the regex source and compiles the whole string with
`regexp.MustCompile`.  `compileConstraint` models the compilation of a
constraint: it parses the fragment of RE2 syntax used by the route
mini-language (literals, `\`-escapes, `.`, character classes with
negation and ranges, greedy `*`/`+`/`?`).  Syntax outside this fragment
yields `none`. -/

/-- Parse the body of a character class up to the closing `]`.
A `-` directly before the closing `]` is a literal `-`. -/
def parseClassBody : List Char → Option (List (Char × Char) × List Char)
  | [] => none
  | ']' :: rest => some ([], rest)
  | ['\\'] => none
  | '\\' :: d :: rest2 =>
    match parseClassBody rest2 with
    | none => none
    | some (rs, rem) => some ((d, d) :: rs, rem)
  | c :: '-' :: d :: rest2 =>
    if d = ']' then some ([(c, c), ('-', '-')], rest2)
    else
      match parseClassBody rest2 with
      | none => none
      | some (rs, rem) => some ((c, d) :: rs, rem)
  | c :: rest =>
    match parseClassBody rest with
    | none => none
    | some (rs, rem) => some ((c, c) :: rs, rem)

/-- Parse a single regex atom: `.`, an escape, a class, or a literal. -/
def parseAtom : List Char → Option (RE × List Char)
  | [] => none
  | c :: rest =>
    if c = '.' then some (RE.anyc, rest)
    else if c = '\\' then
      match rest with
      | [] => none
      | d :: rest2 => if d.isAlphanum then none else some (RE.lit d, rest2)
    else if c = '[' then
      match rest with
      | '^' :: rest2 =>
        match parseClassBody rest2 with
        | none => none
        | some (rs, rem) => some (RE.cls true rs, rem)
      | _ =>
        match parseClassBody rest with
        | none => none
        | some (rs, rem) => some (RE.cls false rs, rem)
    else if c = '*' || c = '+' || c = '?' || c = '(' || c = ')' || c = '|'
        || c = '{' || c = '}' || c = '^' || c = '$' then none
    else some (RE.lit c, rest)

/-- Parse an atom followed by an optional greedy postfix operator. -/
def parseFactor (l : List Char) : Option (RE × List Char) :=
  match parseAtom l with
  | none => none
  | some (a, rest) =>
    match rest with
    | '*' :: r => some (RE.star a, r)
    | '+' :: r => some (RE.plus a, r)
    | '?' :: r => some (RE.opt a, r)
    | _ => some (a, rest)

/-- Parse a sequence of factors (fuel-indexed; every factor consumes at
least one character, so `length + 1` fuel always suffices). -/
def parseSeq : Nat → List Char → Option RE
  | 0, _ => none
  | _ + 1, [] => some RE.emp
  | n + 1, l =>
    match parseFactor l with
    | none => none
    | some (a, rest) =>
      match parseSeq n rest with
      | none => none
      | some b => some (RE.cat a b)

/-- Compile a constraint regex string into the `RE` AST. -/
def compileConstraint (l : List Char) : Option RE :=
  parseSeq (l.length + 1) l

/-! ### Pattern compilation (`parsePattern`) -/

/-- Model of `strings.TrimSuffix(pattern, "/")`: remove one trailing
separator if present. -/
def trimSuffixSlash (p : List Char) : List Char :=
  if p.getLast? = some '/' then p.dropLast else p

/-- The normalization `parsePattern` applies before scanning: trim one
trailing `/`; an empty result becomes `/`. -/
def normalizePattern (p : List Char) : List Char :=
  let t := trimSuffixSlash p
  if t = [] then ['/'] else t

/-- Model of `strings.Index(s, "}")`: index of the first `}`. -/
def findClose : List Char → Option Nat
  | [] => none
  | c :: rest =>
    if c = '}' then some 0 else (findClose rest).map (fun j => j + 1)

/-- Model of `strings.Index(s, ":")`: index of the first `:`. -/
def findColon : List Char → Option Nat
  | [] => none
  | c :: rest =>
    if c = ':' then some 0 else (findColon rest).map (fun j => j + 1)

/-- One scanned pattern element: a literal character (quoted into the
regex by `regexp.QuoteMeta`) or a named parameter with its compiled
constraint (a capturing group in the regex). -/
inductive PatItem where
  | litc (c : Char)
  | param (name : List Char) (re : RE)
deriving DecidableEq, Repr

/-- The default constraint for `{name}` parameters. -/
def defaultConstraint : List Char := "[^/]+".toList

/-- The left-to-right scan of `parsePattern`: at `{`, look for the first
following `}`; if none exists the `{` is copied as a literal character
and scanning continues (the permissive policy for malformed parameter
syntax); otherwise split the `{...}` spec at the first `:` into name and
constraint (default constraint when there is no `:`), compile the
constraint, and record the parameter name, in pattern order.  Every
other character is a literal.  Returns the item list together with the
collected parameter names. -/
def scanPatternF : Nat → List Char → Option (List PatItem × List (List Char))
  | 0, _ => none
  | _ + 1, [] => some ([], [])
  | n + 1, c :: tail =>
    if c = '{' then
      match findClose tail with
      | none =>
        match scanPatternF n tail with
        | none => none
        | some r => some (PatItem.litc c :: r.1, r.2)
      | some j =>
        let spec := tail.take j
        let pname :=
          match findColon spec with
          | none => spec
          | some i => spec.take i
        let pcon :=
          match findColon spec with
          | none => defaultConstraint
          | some i => spec.drop (i + 1)
        match compileConstraint pcon with
        | none => none
        | some re =>
          match scanPatternF n (tail.drop (j + 1)) with
          | none => none
          | some r => some (PatItem.param pname re :: r.1, pname :: r.2)
    else
      match scanPatternF n tail with
      | none => none
      | some r => some (PatItem.litc c :: r.1, r.2)

/-- The scan, with fuel that always suffices (every step consumes at
least one character). -/
def scanPattern (l : List Char) : Option (List PatItem × List (List Char)) :=
  scanPatternF (l.length + 1) l

/-- The regex of a single scanned item. -/
def itemRE : PatItem → RE
  | PatItem.litc c => RE.lit c
  | PatItem.param _ re => RE.grp re

/-- Concatenation of the item regexes. -/
def itemsRE (items : List PatItem) : RE :=
  items.foldr (fun it acc => RE.cat (itemRE it) acc) RE.emp

/-- Model of `parsePattern`: normalize the pattern, scan it, and build
the anchored regex `^ ... /?$` (the trailing `/?` is the final
`RE.opt (RE.lit '/')`; anchoring is the full-match semantics of
`routeMatchCaps`).  Returns the compiled matcher together with the
parameter names in pattern order.  `none` models a constraint regex
outside the supported fragment (where `regexp.MustCompile` would be
needed for full RE2). -/
def parsePattern (p : List Char) : Option (RE × List (List Char)) :=
  match scanPattern (normalizePattern p) with
  | none => none
  | some (items, names) =>
    some (RE.cat (itemsRE items) (RE.opt (RE.lit '/')), names)

/-! ### Routes and lookup (`Router.find`) -/

/-- Extracted path parameters, as an ordered association list (Go builds
a `map[string]string`; the list records the insertion order, and lookups
below take the last binding, matching map-overwrite semantics). -/
abbrev Params : Type := List (List Char × List Char)

/-- Model of the parameter-assignment loop in `Route.match`:
`for i, name := range paramNames { if i+1 < len(matches) {
params[name] = matches[i+1] } }`.  Since `matches` holds the full match
at index 0 followed by the group captures, the guard keeps exactly the
names with a corresponding capture — i.e. the positional zip. -/
def assignParams (names : List (List Char)) (caps : List (List Char)) : Params :=
  names.zip caps

/-- A registered route: method, raw pattern, compiled matcher, parameter
names, and opaque identities for the handler and the middleware list
(functions are modelled by tags; only their identity and order matter
to routing). -/
structure Route where
  method : String
  pattern : List Char
  regex : RE
  paramNames : List (List Char)
  handler : Nat
  middleware : List Nat
deriving DecidableEq

/-- Model of `Route.match`: run the compiled regex against the path and,
on success, assign the captures to the parameter names in order. -/
def routeMatch (r : Route) (path : List Char) : Option Params :=
  match routeMatchCaps r.regex path with
  | none => none
  | some caps => some (assignParams r.paramNames caps)

/-- The scan loop of `Router.find`, carrying the `pathMatched` flag:
for each route whose matcher accepts the path the flag is set; a route
that also has the requested method is returned immediately (with the
hardcoded `false` third value of the Go `return route, params, false`). -/
def findAux : List Route → String → List Char → Bool →
    Option (Route × Params) × Bool
  | [], _, _, pathMatched => (none, pathMatched)
  | r :: rest, method, path, pathMatched =>
    match routeMatch r path with
    | some ps =>
      if r.method = method then (some (r, ps), false)
      else findAux rest method path true
    | none => findAux rest method path pathMatched

/-- Model of `Router.find`: scan the routes in registration order with the
`pathMatched` flag initially `false`. -/
def find (routes : List Route) (method : String) (path : List Char) :
    Option (Route × Params) × Bool :=
  findAux routes method path false

/-- Lookup as the spec words it: the FIRST route (registration order)
whose matcher accepts the path and whose method matches wins, returned
with its parameters; on failure, the boolean reports whether ANY
route's matcher accepted the path (method-not-allowed vs not-found). -/
def lookupSpec (routes : List Route) (method : String) (path : List Char) :
    Option (Route × Params) × Bool :=
  match routes.find? (fun r => r.method == method && (routeMatch r path).isSome) with
  | some r => (some (r, (routeMatch r path).getD []), false)
  | none => (none, routes.any (fun r => (routeMatch r path).isSome))

/-- Model of `Router.Handle` registration: compile the pattern and append
the route.  `parsePattern` returning `none` (a constraint outside the
modelled regex fragment) falls back to a dummy matcher; the patterns in
this development all compile, making the fallback dead. -/
def mkRouteL (method : String) (pattern : List Char) (h : Nat)
    (mw : List Nat) : Route :=
  match parsePattern pattern with
  | some (re, names) => ⟨method, pattern, re, names, h, mw⟩
  | none => ⟨method, pattern, RE.emp, [], h, mw⟩

/-- Registration appends to the route table (append-style, no duplicate
detection). -/
def Handle (routes : List Route) (method : String) (pattern : List Char)
    (h : Nat) (mw : List Nat) : List Route :=
  routes ++ [mkRouteL method pattern h mw]

/-- String-level convenience wrapper around pattern matching: compile the
pattern and match the path, returning the extracted parameters. -/
def matchPatternL (pattern path : List Char) : Option Params :=
  match parsePattern pattern with
  | none => none
  | some (re, names) =>
    match routeMatchCaps re path with
    | none => none
    | some caps => some (assignParams names caps)

/-- `matchPatternL` on Lean strings. -/
def matchPattern (pattern path : String) : Option Params :=
  matchPatternL pattern.toList path.toList

/-! ### Middleware composition (`Chain`) -/

/-- `MiddlewareFunc`: a middleware wraps a handler into a new handler. -/
abbrev MiddlewareFunc (H : Type) : Type := H → H

/-- Model of `Chain`: the Go loop `for i := len(middleware)-1; i >= 0;
i-- { next = middleware[i](next) }`, i.e. a left fold over the reversed
list starting from the terminal handler. -/
def Chain {H : Type} (middleware : List (MiddlewareFunc H)) :
    MiddlewareFunc H :=
  fun next => middleware.reverse.foldl (fun acc m => m acc) next

/-- The composition the spec describes: the nested application
`m1 (m2 (... (mn h)))`. -/
def chainSpec {H : Type} (middleware : List (MiddlewareFunc H)) (h : H) : H :=
  match middleware with
  | [] => h
  | m :: rest => m (chainSpec rest h)

/-- Handlers as trace transformers, used to observe execution order:
running a handler extends the event log. -/
abbrev TraceH : Type := List String → List String

/-- A trace middleware: log the pre event, run the inner handler, log the
post event. -/
def traceMW (nm : String) : MiddlewareFunc TraceH :=
  fun next t => next (t ++ [nm ++ "-before"]) ++ [nm ++ "-after"]

/-- The terminal trace handler. -/
def traceHandler : TraceH := fun t => t ++ ["handler"]

/-! ### Route groups -/

/-- Model of `RouteGroup`: a URL prefix (field `pfx`; the source calls it
`prefix`) and the inherited middleware stack, as opaque tags. -/
structure RouteGroup where
  pfx : List Char
  middleware : List Nat
deriving DecidableEq

/-- Model of `NewRouteGroup`: the prefix is normalized by trimming a
trailing separator. -/
def NewRouteGroup (p : List Char) (mw : List Nat) : RouteGroup :=
  ⟨trimSuffixSlash p, mw⟩

/-- Model of `RouteGroup.Group`: the child's prefix is the parent's
prefix concatenated with the trailing-separator-trimmed new prefix, and
its middleware is a fresh list holding the parent's middleware followed
by the child's own (the Go code copies into `combinedMiddleware`; in
this functional model the parent's list is immutable, which is the
content of the copy-on-group policy). -/
def RouteGroup.Group (g : RouteGroup) (p : List Char) (mw : List Nat) :
    RouteGroup :=
  ⟨g.pfx ++ trimSuffixSlash p, g.middleware ++ mw⟩

/-- Model of `RouteGroup.handle`: register under the concatenated prefix
with group middleware first, then the call-site middleware. -/
def RouteGroup.handle (g : RouteGroup) (routes : List Route)
    (method : String) (pattern : List Char) (h : Nat) (mw : List Nat) :
    List Route :=
  Handle routes method (g.pfx ++ pattern) h (g.middleware ++ mw)

/-! ### The dispatcher (`App.ServeHTTP` / `App.handleError`) -/

/-- Errors crossing the handler boundary: the structured `*HTTPError`
(status code, message, optional wrapped cause) or any other error value
(its message only). -/
inductive GoErr where
  | http (code : Nat) (message : String) (wrapped : Option String)
  | generic (message : String)
deriving DecidableEq

/-- One response written to the output: status code, message, and the
optional debug detail.  Models the JSON error bodies the dispatcher
produces. -/
structure OutItem where
  code : Nat
  message : String
  dbg : Option String
deriving DecidableEq

/-- Model of `Context`: path parameters, key/value store, the
response-written flag (`response` in the source), and the response
output written so far through the attached writer. -/
structure Ctx where
  params : Params
  store : List (String × Nat)
  response : Bool
  output : List OutItem
deriving DecidableEq

/-- Model of a response-writing helper (`Context.JSON` and the helpers
built on it): write the body and mark the response written.  Note the
source helpers do NOT check the flag before writing — only
`handleError` and the recovery middleware do. -/
def writeJSONItem (c : Ctx) (item : OutItem) : Ctx :=
  ⟨c.params, c.store, true, c.output ++ [item]⟩

/-- Model of `Context.IsWritten`. -/
def Ctx.IsWritten (c : Ctx) : Bool := c.response

/-- Model of `Context.Param`: Go map lookup with the zero-value default,
so an absent name yields the empty string.  The last binding wins,
matching map-overwrite insertion order. -/
def Ctx.Param (c : Ctx) (name : List Char) : List Char :=
  match (c.params.filter (fun p => p.1 == name)).getLast? with
  | some p => p.2
  | none => []

/-- Outcome of running a handler: normal return with no error, normal
return with an error value, or an escaping fault (a Go panic). -/
inductive HRes where
  | ok
  | er (e : GoErr)
  | fault
deriving DecidableEq

/-- A handler in the dispatcher model: it may mutate the context (write
output, set the flag) and produces an outcome. -/
abbrev GoHandler : Type := Ctx → Ctx × HRes

/-- Middleware over dispatcher handlers. -/
abbrev GoMW : Type := GoHandler → GoHandler

/-- Model of `Context.reset`: fresh parameter map, fresh store, flag
cleared, and the newly attached response writer (empty output). -/
def resetCtx (_c : Ctx) : Ctx := ⟨[], [], false, []⟩

/-- Model of `sync.Pool.Get`: reuse an idle context or allocate fresh. -/
def acquire : List Ctx → Ctx × List Ctx
  | [] => (⟨[], [], false, []⟩, [])
  | c :: rest => (c, rest)

/-- Model of `sync.Pool.Put`: return the context to the pool. -/
def put (pool : List Ctx) (c : Ctx) : List Ctx := pool ++ [c]

/-- The global-middleware wrapping loop of `ServeHTTP`
(`for i := len(a.middleware)-1; i >= 0; i--`). -/
def composeGlobal (mws : List GoMW) (terminal : GoHandler) : GoHandler :=
  mws.reverse.foldl (fun acc m => m acc) terminal

/-- Model of `App.handleError`: a no-op when the response was already
written; otherwise translate a structured HTTP error to its code and
message (exposing the wrapped cause in debug mode) and anything else to
a generic 500 (exposing the message in debug mode). -/
def handleError (debug : Bool) (c : Ctx) (err : GoErr) : Ctx :=
  if c.IsWritten then c
  else
    match err with
    | GoErr.http code msg w =>
      if debug ∧ w.isSome then writeJSONItem c ⟨code, msg, w⟩
      else writeJSONItem c ⟨code, msg, none⟩
    | GoErr.generic msg =>
      if debug then writeJSONItem c ⟨500, "Internal Server Error", some msg⟩
      else writeJSONItem c ⟨500, "Internal Server Error", none⟩

/-- Model of `App.ServeHTTP`: acquire a context from the pool, reset it,
compose the global middleware around the terminal routing step, run the
chain, translate a returned error, and put the context back.  The `Put`
is straight-line code after the call (no `defer`), so an escaping fault
skips it: that case returns the pool without the context and no final
context.  Returns the new pool and the final context of a completed
dispatch. -/
def serveHTTP (debug : Bool) (mws : List GoMW) (terminal : GoHandler)
    (pool : List Ctx) : List Ctx × Option Ctx :=
  let ac := acquire pool
  let c1 := resetCtx ac.1
  match composeGlobal mws terminal c1 with
  | (c2, HRes.ok) => (put ac.2 c2, some c2)
  | (c2, HRes.er e) =>
    let c3 := handleError debug c2 e
    (put ac.2 c3, some c3)
  | (_, HRes.fault) => (ac.2, none)

/-- Model of the `Recovery` middleware (the supervising layer of §7):
its deferred `recover` intercepts a fault from the inner chain, writes
a default 500 response unless one was already written, and returns
normally (the recovered invocation's error is the zero value `nil`). -/
def recoveryMW : GoMW := fun next c =>
  match next c with
  | (c2, HRes.fault) =>
    (if c2.IsWritten then c2
     else writeJSONItem c2 ⟨500, "Internal Server Error", none⟩, HRes.ok)
  | r => r

/-! ### Auxiliary definitions used in the statements -/

/-- Boolean prefix test on character lists. -/
def isPfx : List Char → List Char → Bool
  | [], _ => true
  | _ :: _, [] => false
  | a :: as, b :: bs => a == b && isPfx as bs

/-- The parameter names of a pattern read directly off the spec's words:
scanning left to right, each `{...}` segment with a closing brace
contributes its name (the part before the first `:`), in pattern
order; an unterminated `{` contributes nothing. -/
def specExtractNamesF : Nat → List Char → List (List Char)
  | 0, _ => []
  | _ + 1, [] => []
  | n + 1, c :: tail =>
    if c = '{' then
      match findClose tail with
      | none => specExtractNamesF n tail
      | some j =>
        let spec := tail.take j
        (match findColon spec with
         | none => spec
         | some i => spec.take i) :: specExtractNamesF n (tail.drop (j + 1))
    else specExtractNamesF n tail

/-- The spec-side name extractor, with always-sufficient fuel. -/
def specExtractNames (l : List Char) : List (List Char) :=
  specExtractNamesF (l.length + 1) l

/-- A parametric route `/a/{x}` for GET, registered first. -/
def routeParamX : Route := mkRouteL "GET" "/a/{x}".toList 0 []

/-- A literal route `/a/fixed` for GET, registered second. -/
def routeFixed : Route := mkRouteL "GET" "/a/fixed".toList 1 []

/-- A route registered only for GET at `/r`. -/
def routeR : Route := mkRouteL "GET" "/r".toList 2 []

/-- The freshly reset context every dispatch starts from. -/
def emptyCtx : Ctx := ⟨[], [], false, []⟩

/-! ### Lemmas: middleware composition -/

/-- The reversed-fold loop peels off the head middleware as the
outermost wrapper. -/
theorem foldlRev_cons {α : Type} (m : α → α) (l : List (α → α)) (x : α) :
    ((m :: l).reverse).foldl (fun acc f => f acc) x =
      m ((l.reverse).foldl (fun acc f => f acc) x) := by
  simp [List.reverse_cons, List.foldl_append]

/-- `Chain` composes the head middleware outermost. -/
theorem Chain_cons {H : Type} (m : MiddlewareFunc H)
    (mws : List (MiddlewareFunc H)) (h : H) :
    Chain (m :: mws) h = m (Chain mws h) := by
  unfold Chain
  exact foldlRev_cons m mws h

/-- The Go wrapping loop of `Chain` computes exactly the nested
application the spec describes. -/
theorem Chain_eq_chainSpec {H : Type} (mws : List (MiddlewareFunc H)) (h : H) :
    Chain mws h = chainSpec mws h := by
  induction mws with
  | nil => rfl
  | cons m rest ih => rw [Chain_cons, ih]; rfl

/-- Executing a chain of trace middlewares produces the onion
interleaving: the pre events in list order, the handler, then the post
events in reverse order. -/
theorem Chain_trace_order (names : List String) (t : List String) :
    Chain (names.map traceMW) traceHandler t =
      t ++ names.map (fun nm => nm ++ "-before") ++ ["handler"]
        ++ (names.reverse).map (fun nm => nm ++ "-after") := by
  induction names generalizing t with
  | nil => simp [Chain, traceHandler]
  | cons nm rest ih =>
    have h1 : Chain ((nm :: rest).map traceMW) traceHandler t =
        traceMW nm (Chain (rest.map traceMW) traceHandler) t := by
      rw [List.map_cons, Chain_cons]
    rw [h1]
    show Chain (rest.map traceMW) traceHandler (t ++ [nm ++ "-before"])
        ++ [nm ++ "-after"] = _
    rw [ih]
    simp

/-- C2: the composed handler produced by `Chain` is the nested
application `m1 (m2 (... (mn h)))` (first-registered outermost); the
empty middleware list composes to the identity wrapper; and executing
a chain of pre/post middlewares yields the onion interleaving
`m1-pre, ..., mn-pre, handler, mn-post, ..., m1-post`. -/
theorem chain_composition_contract :
    (∀ (H : Type) (mws : List (MiddlewareFunc H)) (h : H),
        Chain mws h = chainSpec mws h) ∧
    (∀ (H : Type) (h : H), Chain ([] : List (MiddlewareFunc H)) h = h) ∧
    (∀ (names : List String),
        Chain (names.map traceMW) traceHandler [] =
          names.map (fun nm => nm ++ "-before") ++ ["handler"]
            ++ (names.reverse).map (fun nm => nm ++ "-after")) ∧
    Chain [traceMW "m1", traceMW "m2"] traceHandler [] =
      ["m1-before", "m2-before", "handler", "m2-after", "m1-after"] := by
  refine ⟨fun H mws h => Chain_eq_chainSpec mws h,
          fun H h => rfl,
          fun names => ?_, ?_⟩
  · have := Chain_trace_order names []
    simpa using this
  · rfl

/-! ### Lemmas: route lookup -/

/-- The `find` scan loop, characterized: the first route (in order) whose
matcher accepts the path and whose method matches is returned with its
parameters and a `false` flag; otherwise the flag reports whether the
accumulator or any scanned route's matcher accepted the path. -/
theorem findAux_eq (routes : List Route) (method : String)
    (path : List Char) (b0 : Bool) :
    findAux routes method path b0 =
      match routes.find?
          (fun r => r.method == method && (routeMatch r path).isSome) with
      | some r => (some (r, (routeMatch r path).getD []), false)
      | none =>
        (none, b0 || routes.any (fun r => (routeMatch r path).isSome)) := by
  induction routes generalizing b0 with
  | nil => simp [findAux]
  | cons r rest ih =>
    by_cases hm : (routeMatch r path).isSome
    · obtain ⟨ps, hps⟩ := Option.isSome_iff_exists.mp hm
      by_cases hmeth : r.method = method
      · simp [findAux, hps, hmeth, List.find?_cons]
      · have hbe : (r.method == method) = false := by
          simp [hmeth]
        simp only [findAux, hps, if_neg hmeth, List.find?_cons, hbe,
          Bool.false_and]
        rw [ih]
        cases hfind : rest.find?
            (fun r => r.method == method && (routeMatch r path).isSome) with
        | none => simp [hfind, hps]
        | some r2 => simp [hfind]
    · have hnone : routeMatch r path = none := by
        cases h : routeMatch r path with
        | none => rfl
        | some v => rw [h] at hm; simp at hm
      have hb : (r.method == method && (routeMatch r path).isSome) = false := by
        simp [hnone]
      simp only [findAux, hnone, List.find?_cons, hb]
      rw [ih]
      cases hfind : rest.find?
          (fun r => r.method == method && (routeMatch r path).isSome) with
      | none => simp [hfind, hnone]
      | some r2 => simp [hfind]

/-- `Router.find` computes exactly the spec's lookup. -/
theorem find_eq_lookupSpec (routes : List Route) (method : String)
    (path : List Char) :
    find routes method path = lookupSpec routes method path := by
  rw [find, findAux_eq, lookupSpec]
  cases hfind : routes.find?
      (fun r => r.method == method && (routeMatch r path).isSome) with
  | none => simp
  | some r => simp

/-- C1: lookup scans routes in registration order and returns the first
route whose matcher accepts the path with the requested method, with its
extracted parameters (first-match-wins: `/a/{x}` registered before
`/a/fixed` captures a GET of `/a/fixed`); on a failed scan the boolean
distinguishes method-not-allowed (some matcher accepted the path) from
not-found (none did): POST to `/r` (registered GET-only) reports `true`,
GET/DELETE to the unregistered `/q` report `false`. -/
theorem find_first_match_and_failures :
    (∀ (routes : List Route) (method : String) (path : List Char),
        find routes method path = lookupSpec routes method path) ∧
    find [routeParamX, routeFixed] "GET" "/a/fixed".toList =
      (some (routeParamX, [("x".toList, "fixed".toList)]), false) ∧
    find [routeR] "POST" "/r".toList = (none, true) ∧
    find [routeR] "GET" "/q".toList = (none, false) ∧
    find [routeR] "DELETE" "/q".toList = (none, false) := by
  refine ⟨find_eq_lookupSpec, ?_, ?_, ?_, ?_⟩ <;> decide

/-! ### C3: the route mini-language on its specified examples -/

/-- C3: `/users/{id}` matches `/users/123` with `{id: "123"}` but matches
neither `/users/` nor `/users/123/x`; `/users/{id:[0-9]+}` rejects
`/users/abc` and matches `/users/42` with `{id: "42"}`; and the
catch-all `/files/{path:.*}` matches `/files/a/b/c.txt` with
`{path: "a/b/c.txt"}` (multi-segment capture). -/
theorem pattern_mini_language_examples :
    matchPattern "/users/{id}" "/users/123" =
      some [("id".toList, "123".toList)] ∧
    matchPattern "/users/{id}" "/users/" = none ∧
    matchPattern "/users/{id}" "/users/123/x" = none ∧
    matchPattern "/users/{id:[0-9]+}" "/users/abc" = none ∧
    matchPattern "/users/{id:[0-9]+}" "/users/42" =
      some [("id".toList, "42".toList)] ∧
    matchPattern "/files/{path:.*}" "/files/a/b/c.txt" =
      some [("path".toList, "a/b/c.txt".toList)] := by
  refine ⟨?_, ?_, ?_, ?_, ?_, ?_⟩ <;> decide

/-! ### C9: route groups -/

/-- C9: a child group's effective prefix is the parent's prefix followed
by the trailing-separator-trimmed child prefix, and its effective
middleware is the parent's list followed by the child's own (the
parent's list itself is never modified — in this functional model the
parent group is unchanged by child creation); registering on a group
places the route in the table under the concatenated prefix with the
group middleware first and the call-site middleware after, and nesting
composes: a route registered on `parent.Group q N` with call-site
middleware `R` carries middleware `M ++ N ++ R`. -/
theorem group_prefix_and_middleware :
    (∀ (g : RouteGroup) (q : List Char) (mws : List Nat),
        (g.Group q mws).pfx = g.pfx ++ trimSuffixSlash q ∧
        (g.Group q mws).middleware = g.middleware ++ mws) ∧
    (∀ (g : RouteGroup) (routes : List Route) (method : String)
        (pat : List Char) (h : Nat) (mwR : List Nat),
        g.handle routes method pat h mwR =
          routes ++ [mkRouteL method (g.pfx ++ pat) h (g.middleware ++ mwR)]) ∧
    (∀ (g : RouteGroup) (q : List Char) (mwN : List Nat)
        (routes : List Route) (method : String) (pat : List Char)
        (h : Nat) (mwR : List Nat),
        (g.Group q mwN).handle routes method pat h mwR =
          routes ++ [mkRouteL method (g.pfx ++ trimSuffixSlash q ++ pat) h
            (g.middleware ++ mwN ++ mwR)]) ∧
    ((NewRouteGroup "/api".toList [1]).Group "/v1".toList [2]).handle []
        "GET" "/users".toList 7 [3] =
      [mkRouteL "GET" "/api/v1/users".toList 7 [1, 2, 3]] ∧
    find (((NewRouteGroup "/api".toList [1]).Group "/v1".toList [2]).handle []
        "GET" "/users".toList 7 [3]) "GET" "/api/v1/users".toList =
      (some (mkRouteL "GET" "/api/v1/users".toList 7 [1, 2, 3], []), false) := by
  refine ⟨fun g q mws => ⟨rfl, rfl⟩, fun g routes method pat h mwR => rfl,
          fun g q mwN routes method pat h mwR => ?_, ?_, ?_⟩
  · simp [RouteGroup.handle, RouteGroup.Group, Handle, List.append_assoc]
  · decide
  · decide

/-! ### C4: unconditional context release -/

/-- The global-middleware wrapping loop peels off the head middleware as
the outermost wrapper. -/
theorem composeGlobal_cons (m : GoMW) (mws : List GoMW) (t : GoHandler) :
    composeGlobal (m :: mws) t = m (composeGlobal mws t) := by
  unfold composeGlobal
  exact foldlRev_cons m mws t

/-- The recovery middleware never lets a fault escape: it converts the
inner chain's fault into a normal return. -/
theorem recoveryMW_no_fault (next : GoHandler) (c : Ctx) :
    (recoveryMW next c).2 ≠ HRes.fault := by
  unfold recoveryMW
  cases h : next c with
  | mk c2 r => cases r <;> simp

/-- C4: the dispatcher puts the acquired context back into the pool after
every completed handler chain — whether the chain returned no error or
an error value — and, when the supervising recovery layer is installed
as the outermost global middleware, also when the terminal handler
raises a fault that the layer recovers, for every terminal handler.
(The `Put` is straight-line code, not deferred, so only an unrecovered
escaping fault bypasses it, which the recovery layer prevents.) -/
theorem context_released_unconditionally :
    (∀ (debug : Bool) (mws : List GoMW) (terminal : GoHandler)
        (pool : List Ctx),
        (composeGlobal mws terminal (resetCtx (acquire pool).1)).2 ≠ HRes.fault →
        ∃ cF, serveHTTP debug mws terminal pool =
          (put (acquire pool).2 cF, some cF)) ∧
    (∀ (debug : Bool) (mws : List GoMW) (terminal : GoHandler)
        (pool : List Ctx),
        ∃ cF, serveHTTP debug (recoveryMW :: mws) terminal pool =
          (put (acquire pool).2 cF, some cF)) := by
  constructor
  · intro debug mws terminal pool hnf
    unfold serveHTTP
    cases h : composeGlobal mws terminal (resetCtx (acquire pool).1) with
    | mk c2 res =>
      rw [h] at hnf
      cases res with
      | ok => exact ⟨c2, by simp [h]⟩
      | er e => exact ⟨handleError debug c2 e, by simp [h]⟩
      | fault => exact absurd rfl hnf
  · intro debug mws terminal pool
    unfold serveHTTP
    rw [composeGlobal_cons]
    cases h : recoveryMW (composeGlobal mws terminal) (resetCtx (acquire pool).1) with
    | mk c2 res =>
      have hnf := recoveryMW_no_fault (composeGlobal mws terminal)
        (resetCtx (acquire pool).1)
      rw [h] at hnf
      cases res with
      | ok => exact ⟨c2, by simp [h]⟩
      | er e => exact ⟨handleError debug c2 e, by simp [h]⟩
      | fault => exact absurd rfl hnf

/-- C4 witness: a no-error dispatch over the empty pool releases the
context. -/
theorem context_released_unconditionally_witness :
    ∃ cF, serveHTTP false [] (fun c => (c, HRes.ok)) [] =
      (put (acquire []).2 cF, some cF) :=
  context_released_unconditionally.1 false [] (fun c => (c, HRes.ok)) []
    (by decide)

/-! ### C5: first writer wins; later errors are dropped -/

/-- C5: when the context's written flag is set, `handleError` is a no-op
for every error value; consequently a handler that writes a response
and additionally returns an error produces no additional output — the
dispatch completes with exactly the handler's single written response. -/
theorem error_translation_noop_when_written :
    (∀ (debug : Bool) (c : Ctx) (e : GoErr),
        c.IsWritten = true → handleError debug c e = c) ∧
    (∀ (debug : Bool) (pool : List Ctx) (e : GoErr) (item : OutItem),
        serveHTTP debug [] (fun c => (writeJSONItem c item, HRes.er e)) pool =
          (put (acquire pool).2 (writeJSONItem emptyCtx item),
            some (writeJSONItem emptyCtx item)) ∧
        (writeJSONItem emptyCtx item).output = [item]) := by
  constructor
  · intro debug c e h
    simp [handleError, h]
  · intro debug pool e item
    have hre : ∀ x, resetCtx x = emptyCtx := fun _ => rfl
    have hw : (writeJSONItem emptyCtx item).IsWritten = true := rfl
    have hcf : handleError debug (writeJSONItem emptyCtx item) e =
        writeJSONItem emptyCtx item := by
      simp [handleError, hw]
    constructor
    · simp [serveHTTP, composeGlobal, hre, hcf]
    · simp [writeJSONItem, emptyCtx]

/-- C5 witness: translating a generic error on an already-written context
leaves it untouched. -/
theorem error_translation_noop_when_written_witness :
    handleError false (writeJSONItem emptyCtx ⟨200, "ok", none⟩)
        (GoErr.generic "boom") =
      writeJSONItem emptyCtx ⟨200, "ok", none⟩ :=
  error_translation_noop_when_written.1 false
    (writeJSONItem emptyCtx ⟨200, "ok", none⟩) (GoErr.generic "boom") rfl

/-! ### C10: reading an absent path parameter -/

/-- C10: `Context.Param` is a total lookup with the empty string as the
zero-value default: for a name absent from the parameter map it returns
the empty string, indistinguishable from a parameter captured as the
empty string. -/
theorem param_absent_returns_empty :
    ∀ (c : Ctx) (name : List Char),
      (∀ p ∈ c.params, p.1 ≠ name) →
      Ctx.Param c name = [] ∧
      Ctx.Param ⟨c.params ++ [(name, [])], c.store, c.response, c.output⟩ name =
        Ctx.Param c name := by
  intro c name h
  have hf : c.params.filter (fun p => p.1 == name) = [] := by
    rw [List.filter_eq_nil_iff]
    intro p hp
    simp [h p hp]
  constructor
  · simp [Ctx.Param, hf]
  · simp [Ctx.Param, List.filter_append, hf]

/-- C10 witness: reading `b` from a context whose only parameter is `a`
yields the empty string, just as if `b` had been captured empty. -/
theorem param_absent_returns_empty_witness :
    Ctx.Param ⟨[("a".toList, "1".toList)], [], false, []⟩ "b".toList = [] ∧
    Ctx.Param ⟨[("a".toList, "1".toList)] ++ [("b".toList, [])], [], false, []⟩
        "b".toList =
      Ctx.Param ⟨[("a".toList, "1".toList)], [], false, []⟩ "b".toList :=
  param_absent_returns_empty ⟨[("a".toList, "1".toList)], [], false, []⟩
    "b".toList (by decide)

/-! ### Lemmas: literal patterns -/

/-- `isPfx` characterizes list prefixes. -/
theorem isPfx_iff (cs : List Char) :
    ∀ (s : List Char), isPfx cs s = true ↔ ∃ r, s = cs ++ r := by
  induction cs with
  | nil => intro s; simp [isPfx]
  | cons c cs ih =>
    intro s
    cases s with
    | nil =>
      simp [isPfx]
    | cons x rest =>
      simp only [isPfx, Bool.and_eq_true, beq_iff_eq, ih]
      constructor
      · rintro ⟨rfl, r, rfl⟩
        exact ⟨r, rfl⟩
      · rintro ⟨r, hr⟩
        cases hr
        exact ⟨rfl, r, rfl⟩

/-- A list is a prefix of itself extended by anything. -/
theorem isPfx_append (cs r : List Char) : isPfx cs (cs ++ r) = true :=
  (isPfx_iff cs (cs ++ r)).mpr ⟨r, rfl⟩

/-- Matching a sequence of literal characters consumes exactly that
prefix of the input and hands the rest to the continuation (given
enough fuel). -/
theorem reMatch_lits :
    ∀ (cs : List Char) (fuel : Nat) (s : List Char)
      (caps : List (List Char))
      (k : List Char → List (List Char) → Option (List (List Char))),
      2 * cs.length + 1 ≤ fuel →
      reMatch fuel (itemsRE (cs.map PatItem.litc)) s caps k =
        if isPfx cs s then k (s.drop cs.length) caps else none := by
  intro cs
  induction cs with
  | nil =>
    intro fuel s caps k hf
    cases fuel with
    | zero => omega
    | succ n => simp [itemsRE, reMatch, isPfx]
  | cons c cs ih =>
    intro fuel s caps k hf
    cases fuel with
    | zero => simp at hf
    | succ n =>
      have hn : 2 * cs.length + 2 ≤ n := by
        simp [List.length_cons] at hf; omega
      cases n with
      | zero => omega
      | succ m =>
        have hcat : itemsRE ((c :: cs).map PatItem.litc) =
            RE.cat (RE.lit c) (itemsRE (cs.map PatItem.litc)) := by
          simp [itemsRE, itemRE]
        rw [hcat]
        cases s with
        | nil => simp [reMatch, isPfx]
        | cons x rest =>
          by_cases hx : x = c
          · subst hx
            have hstep :
                reMatch (m + 1 + 1)
                    (RE.cat (RE.lit x) (itemsRE (cs.map PatItem.litc)))
                    (x :: rest) caps k =
                  reMatch (m + 1) (itemsRE (cs.map PatItem.litc)) rest caps k := by
              simp [reMatch]
            rw [hstep, ih (m + 1) rest caps k (by omega)]
            simp [isPfx]
          · have hstep :
                reMatch (m + 1 + 1)
                    (RE.cat (RE.lit c) (itemsRE (cs.map PatItem.litc)))
                    (x :: rest) caps k = none := by
              simp [reMatch, hx]
            rw [hstep]
            simp only [isPfx]
            rw [eq_comm]
            apply if_neg
            intro hcond
            simp at hcond
            exact hx hcond.1.symm

/-- The trailing `/?` with the end-of-input continuation accepts exactly
the empty remainder or a single separator. -/
theorem reMatch_optSlash (fuel : Nat) (s : List Char)
    (caps : List (List Char)) (hf : 2 ≤ fuel) :
    reMatch fuel (RE.opt (RE.lit '/')) s caps
        (fun r c => if r.isEmpty then some c else none) =
      if s = [] ∨ s = ['/'] then some caps else none := by
  cases fuel with
  | zero => omega
  | succ n =>
    cases n with
    | zero => omega
    | succ m =>
      cases s with
      | nil => simp [reMatch]
      | cons x rest =>
        by_cases hx : x = '/'
        · subst hx
          cases rest with
          | nil => simp [reMatch]
          | cons y t => simp [reMatch]
        · simp [reMatch, hx]

/-- Size of a literal item sequence's regex. -/
theorem reSize_itemsRE_lits (cs : List Char) :
    reSize (itemsRE (cs.map PatItem.litc)) = 2 * cs.length + 1 := by
  induction cs with
  | nil => simp [itemsRE, reSize]
  | cons c cs ih =>
    simp [itemsRE, itemRE, reSize] at ih ⊢
    omega

/-- The compiled matcher of a literal-only item sequence accepts exactly
the literal text and the literal text followed by one separator. -/
theorem routeMatchCaps_lits (cs path : List Char) :
    routeMatchCaps
        (RE.cat (itemsRE (cs.map PatItem.litc)) (RE.opt (RE.lit '/'))) path =
      if path = cs ∨ path = cs ++ ['/'] then some [] else none := by
  set re := RE.cat (itemsRE (cs.map PatItem.litc)) (RE.opt (RE.lit '/')) with hre
  have hsize : reSize re = 2 * cs.length + 4 := by
    simp [hre, reSize, reSize_itemsRE_lits]
  have hF : 2 * (2 * cs.length + 6) ≤ matchFuel re path := by
    rw [matchFuel, hsize, Nat.mul_comm]
    exact Nat.mul_le_mul_left (2 * cs.length + 4 + 2) (by omega)
  obtain ⟨n, hn⟩ : ∃ n, matchFuel re path = n + 1 :=
    ⟨matchFuel re path - 1, by omega⟩
  have hnb : 2 * cs.length + 2 ≤ n := by omega
  rw [routeMatchCaps, hn, hre]
  have hcat :
      reMatch (n + 1)
          (RE.cat (itemsRE (cs.map PatItem.litc)) (RE.opt (RE.lit '/')))
          path []
          (fun s caps => if s.isEmpty then some caps else none) =
        reMatch n (itemsRE (cs.map PatItem.litc)) path []
          (fun s2 caps2 =>
            reMatch n (RE.opt (RE.lit '/')) s2 caps2
              (fun s caps => if s.isEmpty then some caps else none)) := by
    simp [reMatch]
  rw [hcat, reMatch_lits cs n path []
    (fun s2 caps2 =>
      reMatch n (RE.opt (RE.lit '/')) s2 caps2
        (fun s caps => if s.isEmpty then some caps else none)) (by omega)]
  cases hpfx : isPfx cs path with
  | false =>
    have h1 : ¬(path = cs ∨ path = cs ++ ['/']) := by
      rintro (h | h)
      · have hp : isPfx cs path = true := by
          rw [h]
          simpa using isPfx_append cs []
        rw [hp] at hpfx
        exact Bool.noConfusion hpfx
      · have hp : isPfx cs path = true := by
          rw [h]
          exact isPfx_append cs ['/']
        rw [hp] at hpfx
        exact Bool.noConfusion hpfx
    simp [h1]
  | true =>
    obtain ⟨r, rfl⟩ := (isPfx_iff cs path).mp hpfx
    simp only [if_pos rfl]
    rw [List.drop_left, reMatch_optSlash n r [] (by omega)]
    by_cases hr : r = [] ∨ r = ['/']
    · have h2 : cs ++ r = cs ∨ cs ++ r = cs ++ ['/'] := by
        rcases hr with rfl | rfl
        · exact Or.inl (by simp)
        · exact Or.inr rfl
      simp [hr, h2]
    · have h2 : ¬(cs ++ r = cs ∨ cs ++ r = cs ++ ['/']) := by
        rintro (h | h)
        · exact hr (Or.inl (by simpa using h))
        · exact hr (Or.inr (by simpa using h))
      simp [hr, h2]

/-- `findClose` finds nothing when no closing brace occurs. -/
theorem findClose_eq_none (l : List Char) (h : '}' ∉ l) :
    findClose l = none := by
  induction l with
  | nil => rfl
  | cons c rest ih =>
    simp only [List.mem_cons, not_or] at h
    simp [findClose, Ne.symm h.1, ih h.2]

/-- A pattern containing no `{` scans to pure literals with no
parameter names. -/
theorem scanF_noOpen :
    ∀ (l : List Char) (n : Nat), l.length + 1 ≤ n → '{' ∉ l →
      scanPatternF n l = some (l.map PatItem.litc, []) := by
  intro l
  induction l with
  | nil =>
    intro n hn _
    cases n with
    | zero => omega
    | succ m => rfl
  | cons c tail ih =>
    intro n hn h
    simp only [List.mem_cons, not_or] at h
    cases n with
    | zero => simp at hn
    | succ m =>
      have hrec := ih m (by simp at hn; omega) h.2
      simp [scanPatternF, Ne.symm h.1, hrec]

/-- A pattern containing no `}` scans to pure literals with no parameter
names: every `{` is unterminated and is copied as a literal. -/
theorem scanF_noClose :
    ∀ (l : List Char) (n : Nat), l.length + 1 ≤ n → '}' ∉ l →
      scanPatternF n l = some (l.map PatItem.litc, []) := by
  intro l
  induction l with
  | nil =>
    intro n hn _
    cases n with
    | zero => omega
    | succ m => rfl
  | cons c tail ih =>
    intro n hn h
    simp only [List.mem_cons, not_or] at h
    cases n with
    | zero => simp at hn
    | succ m =>
      have hrec := ih m (by simp at hn; omega) h.2
      by_cases hc : c = '{'
      · simp [scanPatternF, hc, findClose_eq_none tail h.2, hrec]
      · simp [scanPatternF, hc, hrec]

/-- Normalization cannot introduce a non-separator character. -/
theorem not_mem_normalizePattern {c : Char} (hc : c ≠ '/') (p : List Char)
    (h : c ∉ p) : c ∉ normalizePattern p := by
  have hd : c ∉ trimSuffixSlash p := by
    unfold trimSuffixSlash
    by_cases hl : p.getLast? = some '/'
    · rw [if_pos hl]
      intro hmem
      exact h ((List.dropLast_sublist p).subset hmem)
    · rw [if_neg hl]
      exact h
  show c ∉ (if trimSuffixSlash p = [] then ['/'] else trimSuffixSlash p)
  by_cases he : trimSuffixSlash p = []
  · rw [if_pos he]
    simp [hc]
  · rw [if_neg he]
    exact hd

/-- Matching against a pattern that scans to pure literals accepts
exactly the normalized pattern and the normalized pattern followed by
one separator, extracting no parameters. -/
theorem matchPatternL_lits (p path : List Char)
    (h : scanPattern (normalizePattern p) =
      some ((normalizePattern p).map PatItem.litc, [])) :
    matchPatternL p path =
      if path = normalizePattern p ∨ path = normalizePattern p ++ ['/']
      then some [] else none := by
  unfold matchPatternL parsePattern
  rw [h]
  simp only []
  rw [routeMatchCaps_lits]
  by_cases hcase : path = normalizePattern p ∨ path = normalizePattern p ++ ['/']
  · simp [hcase, assignParams]
  · simp [hcase]

/-! ### C7: literal-only patterns -/

/-- C7 counterexample: the empty pattern and the bare-separator pattern
both compile to the root matcher, but that matcher does NOT match only
the absolute root path: it also accepts `//`. -/
theorem root_matcher_accepts_double_separator :
    matchPattern "/" "//" = some [] ∧
    matchPattern "" "//" = some [] ∧
    ("//" : String) ≠ "/" := by
  refine ⟨?_, ?_, ?_⟩ <;> decide

/-- C7 (amended): for every pattern containing only literal characters
(no `{` at all), the compiled matcher accepts exactly two paths: the
normalized pattern `P` (one trailing separator trimmed, the empty
pattern becoming the bare separator) and `P` followed by a single
separator; in particular the empty and bare-separator patterns compile
to the root matcher, which accepts exactly `/` and `//`. -/
theorem literal_pattern_match_characterization (p path : List Char)
    (h : '{' ∉ p) :
    matchPatternL p path =
      if path = normalizePattern p ∨ path = normalizePattern p ++ ['/']
      then some [] else none := by
  have h2 : '{' ∉ normalizePattern p :=
    not_mem_normalizePattern (by decide) p h
  apply matchPatternL_lits
  unfold scanPattern
  exact scanF_noOpen _ _ (by omega) h2

/-- C7 witness: the literal pattern `/users` accepts `/users/`. -/
theorem literal_pattern_match_characterization_witness :
    matchPatternL "/users".toList "/users/".toList = some [] := by
  rw [literal_pattern_match_characterization "/users".toList "/users/".toList
    (by decide)]
  decide

/-! ### C8: unterminated braces are literal -/

/-- C8: compilation never fails on an unterminated `{`: for every pattern
with no closing brace at all (so every `{` in it is unterminated),
compilation succeeds with no parameter names, and the compiled matcher
treats the whole pattern, braces included, as literal path text;
moreover the scan continues after an unterminated brace even when
earlier placeholders exist — `/a/{x}/{y` (with `{y` unterminated)
matches exactly the verbatim `/a/<seg>/{y` paths, capturing `x`. -/
theorem unterminated_brace_is_literal :
    (∀ (p path : List Char), '}' ∉ p →
        (∃ re, parsePattern p = some (re, [])) ∧
        matchPatternL p path =
          (if path = normalizePattern p ∨ path = normalizePattern p ++ ['/']
           then some [] else none)) ∧
    matchPattern "/a/\x7bid" "/a/\x7bid" = some [] ∧
    matchPattern "/a/\x7bid" "/a/x" = none ∧
    matchPattern "/a/{x}/\x7by" "/a/7/\x7by" =
      some [("x".toList, "7".toList)] := by
  refine ⟨?_, by decide, by decide, by decide⟩
  intro p path h
  have h2 : '}' ∉ normalizePattern p :=
    not_mem_normalizePattern (by decide) p h
  have hscan : scanPattern (normalizePattern p) =
      some ((normalizePattern p).map PatItem.litc, []) := by
    unfold scanPattern
    exact scanF_noClose _ _ (by omega) h2
  constructor
  · refine ⟨RE.cat (itemsRE ((normalizePattern p).map PatItem.litc))
      (RE.opt (RE.lit '/')), ?_⟩
    unfold parsePattern
    rw [hscan]
  · exact matchPatternL_lits p path hscan

/-- C8 witness: `/a/{id` (unterminated) compiles with no parameters and
matches itself verbatim. -/
theorem unterminated_brace_is_literal_witness :
    (∃ re, parsePattern "/a/\x7bid".toList = some (re, [])) ∧
    matchPatternL "/a/\x7bid".toList "/a/\x7bid".toList =
      (if "/a/\x7bid".toList = normalizePattern "/a/\x7bid".toList ∨
          "/a/\x7bid".toList = normalizePattern "/a/\x7bid".toList ++ ['/']
       then some [] else none) :=
  unterminated_brace_is_literal.1 "/a/\x7bid".toList "/a/\x7bid".toList
    (by decide)

/-! ### C6: parameter-name order -/

/-- Whatever the scan produces, the collected names are the placeholder
names of the pattern in left-to-right order. -/
theorem scanF_names :
    ∀ (n : Nat) (l : List Char) (items : List PatItem)
      (names : List (List Char)),
      scanPatternF n l = some (items, names) →
      names = specExtractNamesF n l := by
  intro n
  induction n with
  | zero =>
    intro l items names h
    simp [scanPatternF] at h
  | succ m ih =>
    intro l items names h
    cases l with
    | nil =>
      simp [scanPatternF] at h
      simp [specExtractNamesF, h.2]
    | cons c tail =>
      by_cases hc : c = '{'
      · subst hc
        cases hfc : findClose tail with
        | none =>
          simp [scanPatternF, hfc] at h
          cases hs : scanPatternF m tail with
          | none => rw [hs] at h; simp at h
          | some r =>
            rw [hs] at h
            simp at h
            obtain ⟨h1, h2⟩ := h
            subst h2
            simp [specExtractNamesF, hfc]
            exact ih tail r.1 r.2 (by rw [hs])
        | some j =>
          simp [scanPatternF, hfc] at h
          cases hcc : compileConstraint
              (match findColon (tail.take j) with
               | none => defaultConstraint
               | some i => (tail.take j).drop (i + 1)) with
          | none => rw [hcc] at h; simp at h
          | some re =>
            rw [hcc] at h
            cases hs : scanPatternF m (tail.drop (j + 1)) with
            | none => rw [hs] at h; simp at h
            | some r =>
              rw [hs] at h
              simp at h
              obtain ⟨h1, h2⟩ := h
              subst h2
              simp [specExtractNamesF, hfc]
              exact ih (tail.drop (j + 1)) r.1 r.2 (by rw [hs])
      · simp [scanPatternF, hc] at h
        cases hs : scanPatternF m tail with
        | none => rw [hs] at h; simp at h
        | some r =>
          rw [hs] at h
          simp at h
          obtain ⟨h1, h2⟩ := h
          subst h2
          simp [specExtractNamesF, hc]
          exact ih tail r.1 r.2 (by rw [hs])

/-- The names `parsePattern` returns are the placeholder names of the
normalized pattern in pattern order. -/
theorem parsePattern_names (p : List Char) (re : RE)
    (names : List (List Char)) (h : parsePattern p = some (re, names)) :
    names = specExtractNames (normalizePattern p) := by
  unfold parsePattern at h
  cases hs : scanPattern (normalizePattern p) with
  | none => rw [hs] at h; simp at h
  | some r =>
    rw [hs] at h
    simp only [Option.some.injEq, Prod.mk.injEq] at h
    rw [← h.2]
    unfold scanPattern at hs
    exact scanF_names _ _ r.1 r.2 (by rw [hs])

/-- Positional pairing: the `i`-th entry of a zip pairs the `i`-th
elements. -/
theorem zip_getElem? {α β : Type} :
    ∀ (as : List α) (bs : List β) (i : Nat) (a : α) (b : β),
      as[i]? = some a → bs[i]? = some b → (as.zip bs)[i]? = some (a, b) := by
  intro as
  induction as with
  | nil => intro bs i a b ha; simp at ha
  | cons x xs ih =>
    intro bs i a b ha hb
    cases bs with
    | nil => simp at hb
    | cons y ys =>
      cases i with
      | zero =>
        simp at ha hb
        simp [List.zip_cons_cons, ha, hb]
      | succ j =>
        simp at ha hb
        simpa [List.zip_cons_cons] using ih ys j a b ha hb

/-- C6: compilation collects parameter names in pattern order (they equal
the left-to-right placeholder names of the normalized pattern), and the
extraction step assigns the `i`-th captured substring to the `i`-th
parameter name; end to end, `/u/{a}/{b}` against `/u/1/2` yields the
ordered map `[a ↦ 1, b ↦ 2]`. -/
theorem param_names_in_pattern_order :
    (∀ (p : List Char) (re : RE) (names : List (List Char)),
        parsePattern p = some (re, names) →
        names = specExtractNames (normalizePattern p)) ∧
    (∀ (names caps : List (List Char)) (i : Nat) (nm v : List Char),
        names[i]? = some nm → caps[i]? = some v →
        (assignParams names caps)[i]? = some (nm, v)) ∧
    (parsePattern "/u/{a}/{b}".toList).map (fun r => r.2) =
      some ["a".toList, "b".toList] ∧
    matchPattern "/u/{a}/{b}" "/u/1/2" =
      some [("a".toList, "1".toList), ("b".toList, "2".toList)] := by
  refine ⟨parsePattern_names,
          fun names caps i nm v h1 h2 => zip_getElem? names caps i nm v h1 h2,
          by decide, by decide⟩

/-- C6 witness: the zeroth capture is assigned to the zeroth name. -/
theorem param_names_in_pattern_order_witness :
    (assignParams ["a".toList] ["1".toList])[0]? =
      some ("a".toList, "1".toList) :=
  param_names_in_pattern_order.2.1 ["a".toList] ["1".toList] 0
    "a".toList "1".toList rfl rfl
